import Mathlib

/-!
Verification of the RenegadeX patcher update engine against its source
(src/lib.rs and src/mirrors.rs).  The Rust code is shallowly embedded:
pure arithmetic of the resumable download loop becomes Nat functions,
the plan construction (process_instructions / check_hashes) becomes a
fold over enqueue actions on an association list, the mirror probe
(test_mirrors) becomes a list transformation, and the retry loops of
download_files / retrieve_instructions become fuelled recursions.
Filesystem and network effects are abstracted by explicit inputs: a
function from paths to the SHA-256 digest of the file stored there, and
per-attempt outcome functions for HTTP requests.
-/

/-! ## Resumable download loop (Downloader::download_file, lib.rs 382-450) -/

/-- Size of one download part in bytes, `10u64.pow(6)` in the source. -/
def part_size : Nat := 1000000

/-- Number of parts of a blob:
`file_size / part_size + if file_size % part_size > 0 {1} else {0}` (lib.rs 389). -/
def parts_amount (file_size : Nat) : Nat :=
  file_size / part_size + (if file_size % part_size > 0 then 1 else 0)

/-- Start of the inclusive byte range of a part: `part_int * part_size` (lib.rs 422). -/
def bytes_start (part_int : Nat) : Nat := part_int * part_size

/-- End of the inclusive byte range of a part (lib.rs 423-426):
the raw end `part_int * part_size + part_size - 1` is replaced by `file_size`
whenever it exceeds `file_size`. -/
def bytes_end (file_size part_int : Nat) : Nat :=
  if part_int * part_size + part_size - 1 > file_size then file_size
  else part_int * part_size + part_size - 1

/-- Bytes credited to `state.download_size.0` for one completed part:
`(bytes_end - bytes_start) as u64` (lib.rs 437). -/
def part_credit (file_size part_int : Nat) : Nat :=
  bytes_end file_size part_int - bytes_start part_int

/-- Observable per-task state of the download loop: the 4-byte big-endian
progress sentinel stored at offset `file_size`, and the bytes credited to the
progress state by the loop. -/
structure LoopState where
  sentinel : Nat
  credited : Nat
deriving DecidableEq, Repr

/-- One iteration of the part loop (lib.rs 421-438): after writing the payload
the sentinel is set to `part_int` and `bytes_end - bytes_start` is credited. -/
def loop_step (file_size part_int : Nat) (s : LoopState) : LoopState :=
  { sentinel := part_int,
    credited := s.credited + part_credit file_size part_int }

/-- Runs `n` iterations of the part loop starting at part `part_int`
(the source loop is `for part_int in resume_part..parts_amount`). -/
def download_parts (file_size : Nat) : Nat → Nat → LoopState → LoopState
  | _, 0, s => s
  | part_int, n + 1, s =>
      download_parts file_size (part_int + 1) n (loop_step file_size part_int s)

/-- Bytes credited at startup when resuming (lib.rs 415-419):
`if resume_part != 0 { download_size.0 += part_size * resume_part }`. -/
def resume_credit (resume_part : Nat) : Nat :=
  if resume_part ≠ 0 then part_size * resume_part else 0

/-- Sum of the per-part credits of parts `j, j+1, ..., j+n-1`. -/
def part_credit_sum (file_size : Nat) : Nat → Nat → Nat
  | _, 0 => 0
  | j, n + 1 => part_credit file_size j + part_credit_sum file_size (j + 1) n

theorem download_parts_credited (file_size : Nat) :
    ∀ n j s, (download_parts file_size j n s).credited
      = s.credited + part_credit_sum file_size j n := by
  intro n
  induction n with
  | zero => intro j s; simp [download_parts, part_credit_sum]
  | succ n ih =>
      intro j s
      simp only [download_parts, part_credit_sum, ih (j + 1), loop_step]
      omega

theorem download_parts_sentinel (file_size : Nat) :
    ∀ n j s, 0 < n → (download_parts file_size j n s).sentinel = j + n - 1 := by
  intro n
  induction n with
  | zero => intro j s h; omega
  | succ n ih =>
      intro j s _
      cases n with
      | zero => simp [download_parts, loop_step]
      | succ m =>
          have h1 : download_parts file_size j (m + 1 + 1) s
              = download_parts file_size (j + 1) (m + 1) (loop_step file_size j s) := rfl
          rw [h1, ih (j + 1) (loop_step file_size j s) (by omega)]
          omega

theorem part_credit_mid (file_size j : Nat) (h : j + 1 < parts_amount file_size) :
    part_credit file_size j = part_size - 1 := by
  simp only [parts_amount, part_size] at h
  simp only [part_credit, bytes_end, bytes_start, part_size]
  split_ifs at h ⊢ <;> omega

theorem part_credit_sum_eq (file_size : Nat) :
    ∀ n j, j + n = parts_amount file_size → 0 < n →
    part_credit_sum file_size j n + j * part_size + n
      = file_size + (if file_size % part_size = 0 then 0 else 1) := by
  intro n
  induction n with
  | zero => intro j _ h; omega
  | succ n ih =>
      intro j hjn _
      cases n with
      | zero =>
          simp only [part_credit_sum, part_credit, bytes_end, bytes_start,
            part_size, parts_amount] at *
          split_ifs at * <;> omega
      | succ m =>
          have hmid : part_credit file_size j = part_size - 1 :=
            part_credit_mid file_size j (by omega)
          have := ih (j + 1) (by omega) (by omega)
          simp only [part_credit_sum, hmid, part_size] at *
          omega

theorem parts_amount_pos (file_size : Nat) (h : 0 < file_size) :
    0 < parts_amount file_size := by
  simp only [parts_amount, part_size]
  split <;> omega

/-- Claim C2, counterexample: interrupt a download of a 3 000 000-byte blob
after exactly 2 completed parts.  The sentinel then holds 1, not 2, so a
restart resumes at part index 1 (re-downloading the already-completed part 1)
and credits 1 000 000 bytes at startup, not 2 * part_size = 2 000 000. -/
theorem C2_counterexample :
    (download_parts 3000000 0 2 ⟨0, 0⟩).sentinel = 1 ∧
    ((download_parts 3000000 0 2 ⟨0, 0⟩).sentinel ≠ 2) ∧
    resume_credit (download_parts 3000000 0 2 ⟨0, 0⟩).sentinel = 1000000 ∧
    resume_credit (download_parts 3000000 0 2 ⟨0, 0⟩).sentinel ≠ 2 * part_size := by
  decide

/-- Claim C2, amended: after exactly k completed parts (k ≥ 1, counted from a
fresh file whose sentinel starts at 0) the sentinel holds k - 1, the index of
the last completed part, so a restarted download_file resumes the part loop at
part index k - 1 (re-downloading that one already-completed part) and credits
exactly (k - 1) * part_size bytes at startup. -/
theorem C2_amended (file_size k : Nat) (hk : 1 ≤ k) (hkn : k ≤ parts_amount file_size) :
    (download_parts file_size 0 k ⟨0, 0⟩).sentinel = k - 1 ∧
    resume_credit ((download_parts file_size 0 k ⟨0, 0⟩).sentinel) = (k - 1) * part_size := by
  have hs := download_parts_sentinel file_size k 0 ⟨0, 0⟩ (by omega)
  refine ⟨by omega, ?_⟩
  rw [hs]
  simp only [resume_credit, part_size]
  split <;> omega

/-- Witness for C2_amended at file_size = 3 000 000, k = 2. -/
theorem C2_amended_witness :
    (download_parts 3000000 0 2 ⟨0, 0⟩).sentinel = 2 - 1 ∧
    resume_credit ((download_parts 3000000 0 2 ⟨0, 0⟩).sentinel) = (2 - 1) * part_size :=
  C2_amended 3000000 2 (by decide) (by decide)

/-- Claim C5, counterexample: for a blob of 1 500 000 bytes the second part's
end bound is clamped to file_size = 1 500 000, not to file_size - 1 =
1 499 999 as the claim states. -/
theorem C5_counterexample :
    bytes_end 1500000 1 = 1500000 ∧
    min (1 * part_size + part_size - 1) (1500000 - 1) = 1499999 ∧
    bytes_end 1500000 1 ≠ min (1 * part_size + part_size - 1) (1500000 - 1) := by
  decide

/-- Claim C5, amended: the end bound of a part's inclusive range is
min (part * part_size + part_size - 1) file_size, i.e. it is clamped to
file_size rather than file_size - 1 (so the final request of a blob whose size
is not a multiple of part_size names one byte past the end of the resource);
when part_size divides file_size the claimed bound clamped to file_size - 1
coincides with what the code computes. -/
theorem C5_amended (file_size part_int : Nat) (hp : part_int < parts_amount file_size) :
    bytes_end file_size part_int = min (part_int * part_size + part_size - 1) file_size ∧
    (file_size % part_size = 0 →
      bytes_end file_size part_int
        = min (part_int * part_size + part_size - 1) (file_size - 1)) := by
  simp only [parts_amount, part_size] at hp
  constructor
  · simp only [bytes_end, part_size]
    split_ifs at hp ⊢ <;> omega
  · intro h0
    simp only [part_size] at h0
    simp only [bytes_end, part_size]
    split_ifs at hp ⊢ <;> omega

/-- Witness for C5_amended at file_size = 2 000 000, part 1. -/
theorem C5_amended_witness :
    bytes_end 2000000 1 = min (1 * part_size + part_size - 1) 2000000 ∧
    (2000000 % part_size = 0 →
      bytes_end 2000000 1 = min (1 * part_size + part_size - 1) (2000000 - 1)) :=
  C5_amended 2000000 1 (by decide)

/-- Claim C6, counterexample: a blob of exactly 1 000 000 bytes has one part;
the loop credits bytes_end - bytes_start = 999 999 bytes for it, one less than
the inclusive range length, so after the full uninterrupted run the total
credited is 999 999, not file_size = 1 000 000. -/
theorem C6_counterexample :
    (download_parts 1000000 0 (parts_amount 1000000) ⟨0, 0⟩).credited = 999999 ∧
    (download_parts 1000000 0 (parts_amount 1000000) ⟨0, 0⟩).credited ≠ 1000000 ∧
    bytes_end 1000000 0 - bytes_start 0 + 1 = 1000000 := by
  decide

/-- Claim C6, amended: each completed part credits bytes_end - bytes_start
(one fewer than the number of bytes in the inclusive range except for the
clamped final part), so after all parts of a blob complete in one
uninterrupted run the total credited plus parts_amount equals file_size when
part_size divides file_size, and file_size + 1 otherwise; hence the total
equals file_size exactly when the blob has a single part whose size is not a
multiple of part_size, and falls short of file_size otherwise. -/
theorem C6_amended (file_size : Nat) (h : 0 < file_size) :
    ((download_parts file_size 0 (parts_amount file_size) ⟨0, 0⟩).credited
        + parts_amount file_size
      = file_size + (if file_size % part_size = 0 then 0 else 1)) ∧
    ((download_parts file_size 0 (parts_amount file_size) ⟨0, 0⟩).credited = file_size
      ↔ file_size % part_size ≠ 0 ∧ parts_amount file_size = 1) := by
  have hpos := parts_amount_pos file_size h
  have hmain : (download_parts file_size 0 (parts_amount file_size) ⟨0, 0⟩).credited
        + parts_amount file_size
      = file_size + (if file_size % part_size = 0 then 0 else 1) := by
    rw [download_parts_credited]
    have hc : (⟨0, 0⟩ : LoopState).credited = 0 := rfl
    rw [hc]
    have := part_credit_sum_eq file_size (parts_amount file_size) 0 (by omega) hpos
    omega
  refine ⟨hmain, ?_⟩
  by_cases hdiv : file_size % part_size = 0
  · rw [if_pos hdiv] at hmain
    constructor
    · intro hc; omega
    · rintro ⟨hne, _⟩; exact absurd hdiv hne
  · rw [if_neg hdiv] at hmain
    constructor
    · intro hc; exact ⟨hdiv, by omega⟩
    · rintro ⟨_, h1⟩; omega

/-- Witness for C6_amended at file_size = 2 500 000 (three parts, total
2 499 998, two bytes short of file_size). -/
theorem C6_amended_witness :
    ((download_parts 2500000 0 (parts_amount 2500000) ⟨0, 0⟩).credited
        + parts_amount 2500000
      = 2500000 + (if 2500000 % part_size = 0 then 0 else 1)) ∧
    ((download_parts 2500000 0 (parts_amount 2500000) ⟨0, 0⟩).credited = 2500000
      ↔ 2500000 % part_size ≠ 0 ∧ parts_amount 2500000 = 1) :=
  C6_amended 2500000 (by decide)

/-! ## Data model of the plan (lib.rs 44-79) -/

/-- One manifest entry, lib.rs 44-54.  Hashes are uppercase hex SHA-256
digests carried as strings; absent JSON fields are `none`. -/
structure Instruction where
  path : String
  old_hash : Option String
  new_hash : Option String
  compressed_hash : Option String
  delta_hash : Option String
  full_replace_size : Nat
  delta_size : Nat
  has_delta : Bool
deriving DecidableEq, Repr

/-- Patch entry, lib.rs 56-62. -/
structure PatchEntry where
  target_path : String
  delta_path : String
  has_source : Bool
  target_hash : String
deriving DecidableEq, Repr

/-- Download task, lib.rs 64-70. -/
structure DownloadEntry where
  file_path : String
  file_size : Nat
  file_hash : String
  patch_entries : List PatchEntry
deriving DecidableEq, Repr

/-- Unwrapping of an optional JSON string (`as_string` / `borrow()` in
traits.rs); the source panics on a null field, every call site below is
guarded by a presence check, so the default is never observable. -/
def asString (o : Option String) : String := o.getD ""

/-- Models Downloader::get_hash (lib.rs 487-492).  The filesystem is
abstracted by `disk`, mapping a path to the SHA-256 uppercase hex digest of
the file stored there (`none` when the file is absent); get_hash is only
called on files that exist. -/
def get_hash (disk : String → Option String) (p : String) : String :=
  (disk p).getD ""

/-- Replacement of every backslash character by a forward slash.  The source
calls `path.replace("\\", "/")` (lib.rs 217); for the one-character pattern
that is exactly this character map. -/
def replace_backslash (s : String) : String :=
  String.mk (s.data.map (fun c => if c = '\\' then '/' else c))

/-- Target path of an instruction:
`format!("{}{}", renegadex_location, path.replace("\\", "/"))` (lib.rs 217). -/
def file_path_of (loc path : String) : String := loc ++ replace_backslash path

/-- Local blob path of a download key:
`format!("{}patcher/{}", renegadex_location, key)` (lib.rs 240, 290, 318). -/
def delta_path_of (loc key : String) : String := loc ++ "patcher/" ++ key

/-- One lock-protected check-and-insert of the download hashmap.  All three
enqueue sites (lib.rs 241-259, 291-310, 319-338) run this same compound
operation with their own key, size, blob hash and patch entry. -/
structure EnqueueAction where
  key : String
  size : Nat
  fhash : String
  pe : PatchEntry
deriving DecidableEq, Repr

/-- Shared planner state: the download hashmap (as an association list with
unique keys) and `state.download_size.1`, the total bytes counter. -/
structure PlanState where
  download_hashmap : List (String × DownloadEntry)
  total_bytes : Nat
deriving DecidableEq, Repr

def lookupKey : List (String × DownloadEntry) → String → Option DownloadEntry
  | [], _ => none
  | (k, e) :: rest, key => if k = key then some e else lookupKey rest key

/-- Appends a patch entry to the download entry stored at `key`
(`download_hashmap.get_mut(&key).unwrap().patch_entries.push(...)`). -/
def pushEntry : List (String × DownloadEntry) → String → PatchEntry →
    List (String × DownloadEntry)
  | [], _, _ => []
  | (k, e) :: rest, key, pe =>
      if k = key then (k, { e with patch_entries := e.patch_entries ++ [pe] }) :: rest
      else (k, e) :: pushEntry rest key pe

def containsKey (m : List (String × DownloadEntry)) (k : String) : Bool :=
  (lookupKey m k).isSome

/-- The compound enqueue operation under the download_hashmap lock
(lib.rs 241-259 and the two analogous blocks in check_hashes): if the key is
absent, insert a fresh DownloadEntry (file_path = the blob path, empty patch
entries) and add the size to total_bytes; then push the patch entry. -/
def enqueue (st : PlanState) (a : EnqueueAction) : PlanState :=
  let st1 := if containsKey st.download_hashmap a.key then st
    else { download_hashmap :=
             st.download_hashmap ++ [(a.key, ⟨a.pe.delta_path, a.size, a.fhash, []⟩)],
           total_bytes := st.total_bytes + a.size }
  { st1 with download_hashmap := pushEntry st1.download_hashmap a.key a.pe }

/-- Runs a sequence of lock-protected enqueues.  A parallel interleaving of
the classification and hash passes is exactly some ordering of these atomic
actions, so theorems quantified over the action list cover every
interleaving. -/
def run_enqueues (st : PlanState) (acts : List EnqueueAction) : PlanState :=
  acts.foldl enqueue st

/-- First pass, Downloader::process_instructions (lib.rs 214-264): classify
each instruction by opening its target; a present file with a NewHash goes to
the hash queue (with the resolved path), a missing file with a NewHash
enqueues a full-replace download keyed by NewHash, an instruction without
NewHash is a no-op (the deletion TODO).  Returns (hash_queue, actions). -/
def process_instructions (disk : String → Option String) (loc : String) :
    List Instruction → List Instruction × List EnqueueAction
  | [] => ([], [])
  | ins :: rest =>
      let r := process_instructions disk loc rest
      let fp := file_path_of loc ins.path
      match disk fp with
      | some _ =>
          if ins.new_hash.isSome then ({ ins with path := fp } :: r.1, r.2) else r
      | none =>
          match ins.new_hash with
          | some key =>
              (r.1, ⟨key, ins.full_replace_size, asString ins.compressed_hash,
                ⟨fp, delta_path_of loc key, false, key⟩⟩ :: r.2)
          | none => r

/-- Second pass, one iteration of Downloader::check_hashes (lib.rs 283-340):
hash the file; if it matches old_hash but not new_hash enqueue a delta keyed
`new_hash + "_from_" + old_hash` (note: the patch entry's target_hash is set
to that key, lib.rs 308); if it matches new_hash the file is up to date;
otherwise it is corrupt and a full replacement keyed new_hash is enqueued. -/
def check_hash_action (disk : String → Option String) (loc : String)
    (he : Instruction) : Option EnqueueAction :=
  let fh := get_hash disk he.path
  if he.old_hash.isSome ∧ he.new_hash.isSome ∧ fh = asString he.old_hash
      ∧ fh ≠ asString he.new_hash then
    let key := asString he.new_hash ++ "_from_" ++ asString he.old_hash
    some ⟨key, he.delta_size, asString he.delta_hash,
      ⟨he.path, delta_path_of loc key, true, key⟩⟩
  else if he.new_hash.isSome ∧ fh = asString he.new_hash then none
  else
    let key := asString he.new_hash
    some ⟨key, he.full_replace_size, asString he.compressed_hash,
      ⟨he.path, delta_path_of loc key, false, key⟩⟩

/-- All enqueues of the hash pass (lib.rs 283-342). -/
def check_hashes_actions (disk : String → Option String) (loc : String)
    (hq : List Instruction) : List EnqueueAction :=
  hq.filterMap (check_hash_action disk loc)

/-- Every enqueue the planner performs for a manifest, in one (arbitrary)
sequential order. -/
def plan_actions (disk : String → Option String) (loc : String)
    (inss : List Instruction) : List EnqueueAction :=
  let r := process_instructions disk loc inss
  r.2 ++ check_hashes_actions disk loc r.1

/-- The plan built for a manifest: download hashmap plus total_bytes. -/
def build_plan (disk : String → Option String) (loc : String)
    (inss : List Instruction) : PlanState :=
  run_enqueues ⟨[], 0⟩ (plan_actions disk loc inss)

/-- URL choice of Downloader::download_files (lib.rs 352-355): inspect
`patch_entries[0].has_source`; delta downloads use `/delta/<key>`, full
replacements `/full/<key>`.  Indexing an empty entry list panics in the
source; that case is mapped to the empty string here. -/
def download_url_of (mirror_address key : String) (e : DownloadEntry) : String :=
  match e.patch_entries with
  | pe :: _ =>
      if pe.has_source then mirror_address ++ "/delta/" ++ key
      else mirror_address ++ "/full/" ++ key
  | [] => ""

/-- Verification step of Downloader::apply_patch (lib.rs 477-480): the
produced target file is hashed and compared against the entry's target_hash;
a mismatch is fatal. -/
def apply_patch_hash_ok (result_hash : String) (pe : PatchEntry) : Bool :=
  result_hash == pe.target_hash

/-! ## Properties of the enqueue fold -/

theorem lookupKey_append_single (m : List (String × DownloadEntry)) (key : String)
    (e : DownloadEntry) (k : String) :
    lookupKey (m ++ [(key, e)]) k
      = match lookupKey m k with
        | some x => some x
        | none => if key = k then some e else none := by
  induction m with
  | nil => by_cases h : key = k <;> simp [lookupKey, h]
  | cons p rest ih =>
      obtain ⟨k1, e1⟩ := p
      by_cases h : k1 = k <;> simp [lookupKey, h, ih]

theorem lookupKey_pushEntry (m : List (String × DownloadEntry)) (key : String)
    (pe : PatchEntry) (k : String) :
    lookupKey (pushEntry m key pe) k
      = if key = k then
          (lookupKey m k).map
            (fun e => { e with patch_entries := e.patch_entries ++ [pe] })
        else lookupKey m k := by
  induction m with
  | nil => by_cases h : key = k <;> simp [lookupKey, pushEntry, h]
  | cons p rest ih =>
      obtain ⟨k1, e1⟩ := p
      by_cases h1 : k1 = key <;> by_cases h2 : k1 = k
      · subst h1; subst h2
        simp [lookupKey, pushEntry]
      · subst h1
        simp [lookupKey, pushEntry, h2]
      · subst h2
        have : ¬(key = k1) := fun h => h1 h.symm
        simp [lookupKey, pushEntry, h1, this]
      · simp [lookupKey, pushEntry, h1, h2, ih]

theorem enqueue_lookup_self (st : PlanState) (a : EnqueueAction) :
    lookupKey (enqueue st a).download_hashmap a.key
      = some (match lookupKey st.download_hashmap a.key with
              | some e => { e with patch_entries := e.patch_entries ++ [a.pe] }
              | none => ⟨a.pe.delta_path, a.size, a.fhash, [a.pe]⟩) := by
  unfold enqueue containsKey
  cases h : lookupKey st.download_hashmap a.key <;>
    simp [h, lookupKey_pushEntry, lookupKey_append_single]

theorem enqueue_lookup_other (st : PlanState) (a : EnqueueAction) (k : String)
    (hk : k ≠ a.key) :
    lookupKey (enqueue st a).download_hashmap k = lookupKey st.download_hashmap k := by
  have hk2 : ¬(a.key = k) := fun h => hk h.symm
  unfold enqueue containsKey
  cases h : lookupKey st.download_hashmap a.key <;>
    cases hl : lookupKey st.download_hashmap k <;>
      simp [h, hl, lookupKey_pushEntry, lookupKey_append_single, hk2]

theorem enqueue_total (st : PlanState) (a : EnqueueAction) :
    (enqueue st a).total_bytes
      = st.total_bytes
        + (if containsKey st.download_hashmap a.key then 0 else a.size) := by
  unfold enqueue
  cases hc : containsKey st.download_hashmap a.key <;> simp [hc]

theorem containsKey_enqueue (st : PlanState) (a : EnqueueAction) (k : String) :
    containsKey (enqueue st a).download_hashmap k
      = (containsKey st.download_hashmap k || (a.key == k)) := by
  by_cases hk : a.key = k
  · subst hk
    simp [containsKey, enqueue_lookup_self]
  · rw [containsKey, enqueue_lookup_other st a k (fun h => hk h.symm), ← containsKey]
    simp [hk]

/-- Expected content of a map entry after a list of enqueues with a fixed key,
starting from a previous binding `prev`. -/
def entryAfter (prev : Option DownloadEntry) (l : List EnqueueAction) :
    Option DownloadEntry :=
  match prev, l with
  | some e, l => some { e with patch_entries := e.patch_entries ++ l.map (fun a => a.pe) }
  | none, [] => none
  | none, a :: l => some ⟨a.pe.delta_path, a.size, a.fhash, (a :: l).map (fun b => b.pe)⟩

theorem entryAfter_nil (prev : Option DownloadEntry) : entryAfter prev [] = prev := by
  cases prev with
  | none => rfl
  | some e => simp [entryAfter]

theorem run_enqueues_lookup (acts : List EnqueueAction) :
    ∀ (st : PlanState) (k : String),
      lookupKey (run_enqueues st acts).download_hashmap k
        = entryAfter (lookupKey st.download_hashmap k)
            (acts.filter (fun a => a.key == k)) := by
  induction acts with
  | nil => intro st k; simp [run_enqueues, entryAfter_nil]
  | cons a acts ih =>
      intro st k
      have hrun : run_enqueues st (a :: acts) = run_enqueues (enqueue st a) acts := rfl
      rw [hrun, ih]
      by_cases hk : a.key = k
      · subst hk
        rw [enqueue_lookup_self]
        cases hl : lookupKey st.download_hashmap a.key <;>
          simp [entryAfter, List.filter_cons, hl]
      · rw [enqueue_lookup_other st a k (fun h => hk h.symm)]
        simp [List.filter_cons, hk]

theorem lookupKey_eq_none_iff (m : List (String × DownloadEntry)) (k : String) :
    lookupKey m k = none ↔ k ∉ m.map Prod.fst := by
  induction m with
  | nil => simp [lookupKey]
  | cons p rest ih =>
      obtain ⟨k1, e1⟩ := p
      by_cases h : k1 = k
      · subst h
        simp [lookupKey]
      · have h2 : ¬(k = k1) := fun hh => h hh.symm
        simp only [lookupKey, if_neg h, List.map_cons, List.mem_cons, ih]
        tauto

theorem keys_pushEntry (m : List (String × DownloadEntry)) (key : String)
    (pe : PatchEntry) :
    (pushEntry m key pe).map Prod.fst = m.map Prod.fst := by
  induction m with
  | nil => rfl
  | cons p rest ih =>
      obtain ⟨k1, e1⟩ := p
      by_cases h : k1 = key <;> simp [pushEntry, h, ih]

theorem keys_enqueue (st : PlanState) (a : EnqueueAction) :
    (enqueue st a).download_hashmap.map Prod.fst
      = if containsKey st.download_hashmap a.key
        then st.download_hashmap.map Prod.fst
        else st.download_hashmap.map Prod.fst ++ [a.key] := by
  unfold enqueue
  cases hc : containsKey st.download_hashmap a.key <;> simp [hc, keys_pushEntry]

theorem run_enqueues_nodup (acts : List EnqueueAction) :
    ∀ st : PlanState, (st.download_hashmap.map Prod.fst).Nodup →
      ((run_enqueues st acts).download_hashmap.map Prod.fst).Nodup := by
  induction acts with
  | nil => intro st h; exact h
  | cons a acts ih =>
      intro st h
      have hrun : run_enqueues st (a :: acts) = run_enqueues (enqueue st a) acts := rfl
      rw [hrun]
      apply ih
      rw [keys_enqueue]
      cases hc : containsKey st.download_hashmap a.key
      · have hnone : lookupKey st.download_hashmap a.key = none := by
          rw [containsKey] at hc
          cases hl : lookupKey st.download_hashmap a.key
          · rfl
          · rw [hl] at hc; simp at hc
        have hnotin := (lookupKey_eq_none_iff st.download_hashmap a.key).mp hnone
        simp [List.nodup_append, h, hnotin]
      · simpa using h

/-- Total-bytes bookkeeping of a sequence of enqueues: a key already `seen`
contributes nothing, the first action with an unseen key contributes its
size. -/
def fresh_total (seen : String → Bool) : List EnqueueAction → Nat
  | [] => 0
  | a :: rest =>
      (if seen a.key then 0 else a.size)
        + fresh_total (fun k => seen k || (a.key == k)) rest

theorem fresh_total_congr (l : List EnqueueAction) :
    ∀ s1 s2 : String → Bool, (∀ k, s1 k = s2 k) → fresh_total s1 l = fresh_total s2 l := by
  induction l with
  | nil => intros; rfl
  | cons a rest ih =>
      intro s1 s2 h
      simp only [fresh_total, h a.key]
      congr 1
      exact ih _ _ (fun k => by rw [h k])

theorem run_enqueues_total (acts : List EnqueueAction) :
    ∀ st : PlanState,
      (run_enqueues st acts).total_bytes
        = st.total_bytes
          + fresh_total (fun k => containsKey st.download_hashmap k) acts := by
  induction acts with
  | nil => intro st; simp [run_enqueues, fresh_total]
  | cons a acts ih =>
      intro st
      have hrun : run_enqueues st (a :: acts) = run_enqueues (enqueue st a) acts := rfl
      rw [hrun, ih, enqueue_total]
      rw [fresh_total_congr acts _ _ (fun k => containsKey_enqueue st a k)]
      simp only [fresh_total]
      omega

/-- Claim C3: for any sequence of lock-protected enqueue operations — and a
parallel interleaving of the classification and hash passes is exactly some
such sequence, since each enqueue holds the download_hashmap lock for the
whole compound check-and-insert — the resulting plan has pairwise-distinct
task keys, a key is present exactly when some action carries it, the patch
entries of a key's task are precisely the entries of the actions with that
key (one per instruction), and total_bytes counts each key's size exactly
once, at the first insertion of that key. -/
theorem C3_dedup (acts : List EnqueueAction) :
    ((run_enqueues ⟨[], 0⟩ acts).download_hashmap.map Prod.fst).Nodup ∧
    (∀ k, containsKey (run_enqueues ⟨[], 0⟩ acts).download_hashmap k = true
        ↔ ∃ a ∈ acts, a.key = k) ∧
    (∀ k e, lookupKey (run_enqueues ⟨[], 0⟩ acts).download_hashmap k = some e →
        e.patch_entries = (acts.filter (fun a => a.key == k)).map (fun a => a.pe)) ∧
    (run_enqueues ⟨[], 0⟩ acts).total_bytes = fresh_total (fun _ => false) acts := by
  refine ⟨run_enqueues_nodup acts ⟨[], 0⟩ (by simp), ?_, ?_, ?_⟩
  · intro k
    rw [containsKey, run_enqueues_lookup]
    have h0 : lookupKey (⟨[], 0⟩ : PlanState).download_hashmap k = none := rfl
    rw [h0]
    cases hf : acts.filter (fun a => a.key == k) with
    | nil =>
        simp only [entryAfter, Option.isSome_none]
        constructor
        · intro h; simp at h
        · rintro ⟨a, ha, hak⟩
          have : a ∈ acts.filter (fun b => b.key == k) := by
            simp [List.mem_filter, ha, hak]
          rw [hf] at this
          simp at this
    | cons b l =>
        simp only [entryAfter, Option.isSome_some, true_iff]
        have hb : b ∈ acts.filter (fun a => a.key == k) := by rw [hf]; exact List.mem_cons_self b l
        rw [List.mem_filter] at hb
        exact ⟨b, hb.1, by simpa using hb.2⟩
  · intro k e h
    rw [run_enqueues_lookup] at h
    have h0 : lookupKey (⟨[], 0⟩ : PlanState).download_hashmap k = none := rfl
    rw [h0] at h
    cases hf : acts.filter (fun a => a.key == k) with
    | nil => rw [hf] at h; simp [entryAfter] at h
    | cons b l =>
        rw [hf] at h
        simp only [entryAfter, Option.some.injEq] at h
        rw [← h]
  · rw [run_enqueues_total]
    have h2 := fresh_total_congr acts
      (fun k => containsKey (PlanState.mk [] 0).download_hashmap k)
      (fun _ => false) (fun k => rfl)
    rw [h2]
    simp

/-- Two enqueue actions sharing the key "K", used to witness C3_dedup. -/
def actsW : List EnqueueAction :=
  [⟨"K", 5, "H1", ⟨"t1", "p/K", false, "K"⟩⟩,
   ⟨"K", 7, "H2", ⟨"t2", "p/K", false, "K"⟩⟩]

/-- Download entry produced by running actsW. -/
def entryW : DownloadEntry :=
  ⟨"p/K", 5, "H1", [⟨"t1", "p/K", false, "K"⟩, ⟨"t2", "p/K", false, "K"⟩]⟩

/-- Witness for C3_dedup on actsW: both actions land in the single "K" task
and its size 5 is counted once. -/
theorem C3_dedup_witness :
    lookupKey (run_enqueues ⟨[], 0⟩ actsW).download_hashmap "K" = some entryW ∧
    entryW.patch_entries = (actsW.filter (fun a => a.key == "K")).map (fun a => a.pe) ∧
    (run_enqueues ⟨[], 0⟩ actsW).total_bytes = fresh_total (fun _ => false) actsW :=
  ⟨by decide, (C3_dedup actsW).2.2.1 "K" entryW (by decide), (C3_dedup actsW).2.2.2⟩

/-! ## Claims C1 and C4: target hashes and the present/absent/present row -/

/-- Filesystem of the C1 scenario: the target file `game/a` is present and
currently hashes to "OLDH"; nothing else exists. -/
def diskC1 : String → Option String :=
  fun p => if p = "game/a" then some "OLDH" else none

/-- Instruction of the C1 scenario: a published delta from "OLDH" to
"NEWH". -/
def insC1 : Instruction :=
  ⟨"a", some "OLDH", some "NEWH", some "CH", some "DH", 10, 5, true⟩

/-- Patch entry the planner produces for insC1 (computed by the model). -/
def peC1 : PatchEntry :=
  ⟨"game/a", "game/patcher/NEWH_from_OLDH", true, "NEWH_from_OLDH"⟩

/-- Claim C1, evaluation at the failing input (code bug): for a delta
instruction with old_hash "OLDH" and new_hash "NEWH" whose target file hashes
to "OLDH", the planned patch entry's target_hash is the download key
"NEWH_from_OLDH", not the instruction's new_hash "NEWH"; consequently
apply_patch's final check rejects a correctly decoded target, whose SHA-256
digest is "NEWH". -/
theorem C1_code_bug :
    lookupKey (build_plan diskC1 "game/" [insC1]).download_hashmap "NEWH_from_OLDH"
      = some ⟨"game/patcher/NEWH_from_OLDH", 5, "DH", [peC1]⟩ ∧
    peC1.target_hash = "NEWH_from_OLDH" ∧
    peC1.target_hash ≠ asString insC1.new_hash ∧
    apply_patch_hash_ok "NEWH" peC1 = false := by
  decide

/-- Filesystem of the C4 counterexample: the target file `game/b` is present
and already hashes to the instruction's new_hash "NH". -/
def diskC4 : String → Option String :=
  fun p => if p = "game/b" then some "NH" else none

/-- Instruction of the C4 counterexample: old_hash absent, new_hash
present. -/
def insC4 : Instruction :=
  ⟨"b", none, some "NH", some "CH", none, 10, 0, false⟩

/-- Claim C4, counterexample: a present file with old_hash absent and
new_hash present does not always produce a full-replace download — when the
on-disk content already hashes to new_hash the hash pass classifies it
up-to-date and the plan stays empty. -/
theorem C4_counterexample :
    (build_plan diskC4 "game/" [insC4]).download_hashmap = [] ∧
    containsKey (build_plan diskC4 "game/" [insC4]).download_hashmap "NH" = false := by
  decide

/-- Claim C4, amended: for every instruction whose target file is present on
disk, whose old_hash is absent, whose new_hash is present, and whose on-disk
content does not already hash to new_hash, the planner enqueues a
full-replace download with key new_hash carrying a patch entry for that file
(when the file already hashes to new_hash, no task is created, as
C4_counterexample shows). -/
theorem C4_amended (disk : String → Option String) (loc : String)
    (ins : Instruction) (dh nh : String)
    (hdisk : disk (file_path_of loc ins.path) = some dh)
    (hold : ins.old_hash = none) (hnew : ins.new_hash = some nh) (hne : dh ≠ nh) :
    lookupKey (build_plan disk loc [ins]).download_hashmap nh
      = some ⟨delta_path_of loc nh, ins.full_replace_size, asString ins.compressed_hash,
          [⟨file_path_of loc ins.path, delta_path_of loc nh, false, nh⟩]⟩ := by
  simp [build_plan, plan_actions, process_instructions, check_hashes_actions,
    check_hash_action, get_hash, asString, run_enqueues, enqueue, containsKey,
    lookupKey, pushEntry, hdisk, hold, hnew, hne]

/-- Filesystem for the C4_amended witness. -/
def diskC4w : String → Option String :=
  fun p => if p = "g/c" then some "X" else none

/-- Instruction for the C4_amended witness. -/
def insC4w : Instruction :=
  ⟨"c", none, some "Y", some "CH", none, 3, 0, false⟩

/-- Witness for C4_amended: file present with digest "X", old_hash absent,
new_hash "Y" ≠ "X" yields the full-replace task keyed "Y". -/
theorem C4_amended_witness :
    lookupKey (build_plan diskC4w "g/" [insC4w]).download_hashmap "Y"
      = some ⟨delta_path_of "g/" "Y", insC4w.full_replace_size,
          asString insC4w.compressed_hash,
          [⟨file_path_of "g/" insC4w.path, delta_path_of "g/" "Y", false, "Y"⟩]⟩ :=
  C4_amended diskC4w "g/" insC4w "X" "Y" (by decide) (by decide) (by decide) (by decide)

/-! ## Claim C10: tasks are nonempty and agree on has_source -/

/-- Keys of all possible full-replace downloads of a manifest: its NewHash
values. -/
def full_keys (inss : List Instruction) : List String :=
  inss.filterMap (fun i => i.new_hash)

/-- Keys of all possible delta downloads of a manifest:
`new_hash ++ "_from_" ++ old_hash` for instructions carrying both hashes. -/
def delta_keys (inss : List Instruction) : List String :=
  inss.filterMap (fun i =>
    match i.new_hash, i.old_hash with
    | some n, some o => some (n ++ "_from_" ++ o)
    | _, _ => none)

theorem process_instructions_hq_mem (disk : String → Option String) (loc : String) :
    ∀ inss : List Instruction, ∀ he ∈ (process_instructions disk loc inss).1,
      ∃ ins ∈ inss, he.old_hash = ins.old_hash ∧ he.new_hash = ins.new_hash
        ∧ he.new_hash.isSome = true := by
  intro inss
  induction inss with
  | nil => intro he h; simp [process_instructions] at h
  | cons ins rest ih =>
      intro he h
      cases hd : disk (file_path_of loc ins.path) with
      | some v =>
          by_cases hn : ins.new_hash.isSome = true
          · simp only [process_instructions, hd, hn, if_true] at h
            rcases List.mem_cons.mp h with h1 | h1
            · subst h1
              exact ⟨ins, List.mem_cons_self ins rest, rfl, rfl, hn⟩
            · obtain ⟨i, hi, hprops⟩ := ih he h1
              exact ⟨i, List.mem_cons_of_mem ins hi, hprops⟩
          · simp only [process_instructions, hd, hn, if_false] at h
            obtain ⟨i, hi, hprops⟩ := ih he h
            exact ⟨i, List.mem_cons_of_mem ins hi, hprops⟩
      | none =>
          cases hn : ins.new_hash with
          | some key =>
              simp only [process_instructions, hd, hn] at h
              obtain ⟨i, hi, hprops⟩ := ih he h
              exact ⟨i, List.mem_cons_of_mem ins hi, hprops⟩
          | none =>
              simp only [process_instructions, hd, hn] at h
              obtain ⟨i, hi, hprops⟩ := ih he h
              exact ⟨i, List.mem_cons_of_mem ins hi, hprops⟩

theorem process_instructions_acts_mem (disk : String → Option String) (loc : String) :
    ∀ inss : List Instruction, ∀ a ∈ (process_instructions disk loc inss).2,
      a.pe.has_source = false ∧ ∃ ins ∈ inss, ins.new_hash = some a.key := by
  intro inss
  induction inss with
  | nil => intro a h; simp [process_instructions] at h
  | cons ins rest ih =>
      intro a h
      cases hd : disk (file_path_of loc ins.path) with
      | some v =>
          by_cases hn : ins.new_hash.isSome = true
          · simp only [process_instructions, hd, hn, if_true] at h
            obtain ⟨hfs, i, hi, hprops⟩ := ih a h
            exact ⟨hfs, i, List.mem_cons_of_mem ins hi, hprops⟩
          · simp only [process_instructions, hd, hn, if_false] at h
            obtain ⟨hfs, i, hi, hprops⟩ := ih a h
            exact ⟨hfs, i, List.mem_cons_of_mem ins hi, hprops⟩
      | none =>
          cases hn : ins.new_hash with
          | some key =>
              simp only [process_instructions, hd, hn] at h
              rcases List.mem_cons.mp h with h1 | h1
              · subst h1
                exact ⟨rfl, ins, List.mem_cons_self ins rest, hn⟩
              · obtain ⟨hfs, i, hi, hprops⟩ := ih a h1
                exact ⟨hfs, i, List.mem_cons_of_mem ins hi, hprops⟩
          | none =>
              simp only [process_instructions, hd, hn] at h
              obtain ⟨hfs, i, hi, hprops⟩ := ih a h
              exact ⟨hfs, i, List.mem_cons_of_mem ins hi, hprops⟩

theorem check_hash_action_cases (disk : String → Option String) (loc : String)
    (he : Instruction) (a : EnqueueAction)
    (ha : check_hash_action disk loc he = some a) :
    (a.pe.has_source = true ∧ ∃ n o, he.new_hash = some n ∧ he.old_hash = some o
        ∧ a.key = n ++ "_from_" ++ o) ∨
    (a.pe.has_source = false ∧ a.key = asString he.new_hash) := by
  simp only [check_hash_action] at ha
  split_ifs at ha with h1 h2
  · left
    obtain ⟨ho, hn, _, _⟩ := h1
    obtain ⟨o, ho2⟩ := Option.isSome_iff_exists.mp ho
    obtain ⟨n, hn2⟩ := Option.isSome_iff_exists.mp hn
    simp only [Option.some.injEq] at ha
    subst ha
    exact ⟨rfl, n, o, hn2, ho2, by simp [asString, hn2, ho2]⟩
  · right
    simp only [Option.some.injEq] at ha
    subst ha
    exact ⟨rfl, rfl⟩

/-- Every planner enqueue carries either a full-replace patch entry
(has_source false) whose key is some instruction's new_hash, or a delta patch
entry (has_source true) whose key is some instruction's
new_hash ++ "_from_" ++ old_hash. -/
theorem plan_actions_provenance (disk : String → Option String) (loc : String)
    (inss : List Instruction) :
    ∀ a ∈ plan_actions disk loc inss,
      (a.pe.has_source = false ∧ a.key ∈ full_keys inss) ∨
      (a.pe.has_source = true ∧ a.key ∈ delta_keys inss) := by
  intro a ha
  unfold plan_actions at ha
  rw [List.mem_append] at ha
  cases ha with
  | inl h =>
      obtain ⟨hfs, ins, hins, hnk⟩ := process_instructions_acts_mem disk loc inss a h
      exact Or.inl ⟨hfs, List.mem_filterMap.mpr ⟨ins, hins, hnk⟩⟩
  | inr h =>
      obtain ⟨he, hhe, hact⟩ := List.mem_filterMap.mp h
      obtain ⟨ins, hins, hold, hnew, hsome⟩ :=
        process_instructions_hq_mem disk loc inss he hhe
      cases check_hash_action_cases disk loc he a hact with
      | inl hdelta =>
          obtain ⟨hs, n, o, hn, ho, hk⟩ := hdelta
          refine Or.inr ⟨hs, List.mem_filterMap.mpr ⟨ins, hins, ?_⟩⟩
          rw [← hnew, ← hold, hn, ho, hk]
      | inr hfull =>
          obtain ⟨n, hn⟩ := Option.isSome_iff_exists.mp hsome
          refine Or.inl ⟨hfull.1, List.mem_filterMap.mpr ⟨ins, hins, ?_⟩⟩
          rw [← hnew, hn, hfull.2, hn]
          simp [asString]

/-- Filesystem of the C10 counterexample: only `g/b` exists, hashing to
"Y". -/
def diskC10 : String → Option String :=
  fun p => if p = "g/b" then some "Y" else none

/-- Missing-file instruction whose NewHash is the string "X_from_Y", which
textually collides with a delta key. -/
def insA10 : Instruction := ⟨"a", none, some "X_from_Y", some "CA", none, 3, 0, false⟩

/-- Delta instruction from "Y" to "X": its download key is also
"X_from_Y". -/
def insB10 : Instruction := ⟨"b", some "Y", some "X", some "CB", some "DB", 9, 4, true⟩

/-- Download entry the planner builds for the colliding key. -/
def entryC10 : DownloadEntry :=
  ⟨"g/patcher/X_from_Y", 3, "CA",
   [⟨"g/a", "g/patcher/X_from_Y", false, "X_from_Y"⟩,
    ⟨"g/b", "g/patcher/X_from_Y", true, "X_from_Y"⟩]⟩

/-- Claim C10, counterexample: when a full-replace key (NewHash "X_from_Y")
textually equals a delta key (new "X", old "Y"), the single task mixes patch
entries with has_source false and true, so choosing the URL from the first
entry (full) is not equivalent to testing whether any entry has a source. -/
theorem C10_counterexample :
    lookupKey (build_plan diskC10 "g/" [insA10, insB10]).download_hashmap "X_from_Y"
      = some entryC10 ∧
    entryC10.patch_entries.map (fun pe => pe.has_source) = [false, true] ∧
    download_url_of "m" "X_from_Y" entryC10 = "m" ++ "/full/" ++ "X_from_Y" ∧
    entryC10.patch_entries.any (fun pe => pe.has_source) = true := by
  decide

/-- Claim C10, amended: provided no full-replace key textually equals a delta
key (true in particular for real manifests, whose hashes are 64-character hex
digests and thus never contain "_from_"), every download task in a built plan
has at least one patch entry, all its patch entries agree on has_source, and
the URL chosen from the first patch entry equals the URL chosen by testing
whether any entry has a source. -/
theorem C10_amended (disk : String → Option String) (loc : String)
    (inss : List Instruction) (m : String)
    (hdisj : ∀ k, k ∈ full_keys inss → k ∉ delta_keys inss) :
    ∀ k e, lookupKey (build_plan disk loc inss).download_hashmap k = some e →
      e.patch_entries ≠ [] ∧
      (∀ pe1 ∈ e.patch_entries, ∀ pe2 ∈ e.patch_entries,
        pe1.has_source = pe2.has_source) ∧
      download_url_of m k e
        = (if e.patch_entries.any (fun pe => pe.has_source) = true
           then m ++ "/delta/" ++ k else m ++ "/full/" ++ k) := by
  intro k e he
  unfold build_plan at he
  rw [run_enqueues_lookup] at he
  have h0 : lookupKey (⟨[], 0⟩ : PlanState).download_hashmap k = none := rfl
  rw [h0] at he
  cases hf : (plan_actions disk loc inss).filter (fun a => a.key == k) with
  | nil => rw [hf] at he; simp [entryAfter] at he
  | cons b l =>
      rw [hf] at he
      simp only [entryAfter, Option.some.injEq] at he
      have hmem : ∀ x ∈ b :: l, x ∈ plan_actions disk loc inss ∧ x.key = k := by
        intro x hx
        have hxf : x ∈ (plan_actions disk loc inss).filter (fun a => a.key == k) := by
          rw [hf]; exact hx
        rw [List.mem_filter] at hxf
        exact ⟨hxf.1, by simpa using hxf.2⟩
      have hagree : ∀ x ∈ b :: l, ∀ y ∈ b :: l,
          x.pe.has_source = y.pe.has_source := by
        intro x hx y hy
        rcases plan_actions_provenance disk loc inss x (hmem x hx).1 with hx1 | hx1 <;>
          rcases plan_actions_provenance disk loc inss y (hmem y hy).1 with hy1 | hy1
        · rw [hx1.1, hy1.1]
        · exfalso
          apply hdisj k
          · rw [← (hmem x hx).2]; exact hx1.2
          · rw [← (hmem y hy).2]; exact hy1.2
        · exfalso
          apply hdisj k
          · rw [← (hmem y hy).2]; exact hy1.2
          · rw [← (hmem x hx).2]; exact hx1.2
        · rw [hx1.1, hy1.1]
      rw [← he]
      refine ⟨by simp, ?_, ?_⟩
      · intro pe1 h1 pe2 h2
        obtain ⟨x, hx, hxe⟩ := List.mem_map.mp h1
        obtain ⟨y, hy, hye⟩ := List.mem_map.mp h2
        rw [← hxe, ← hye]
        exact hagree x hx y hy
      · cases hb : b.pe.has_source with
        | true =>
            simp [download_url_of, hb]
        | false =>
            have hall : ((b :: l).map (fun x => x.pe)).any
                (fun pe => pe.has_source) = false := by
              rw [List.any_eq_false]
              intro pe hpe
              obtain ⟨x, hx, hxe⟩ := List.mem_map.mp hpe
              rw [← hxe, hagree x hx b (List.mem_cons_self b l), hb]
              simp
            rw [hall]
            simp [download_url_of, hb]

/-- Filesystem of the C10_amended witness: empty, so the single instruction
becomes a full-replace download. -/
def diskC10w : String → Option String := fun _ => none

/-- Instruction of the C10_amended witness. -/
def insC10w : Instruction := ⟨"z", none, some "Z", some "CZ", none, 2, 0, false⟩

/-- Download entry of the C10_amended witness plan. -/
def entryC10w : DownloadEntry :=
  ⟨"h/patcher/Z", 2, "CZ", [⟨"h/z", "h/patcher/Z", false, "Z"⟩]⟩

/-- Witness for C10_amended on a one-instruction manifest with no key
collisions. -/
theorem C10_amended_witness :
    entryC10w.patch_entries ≠ [] ∧
    (∀ pe1 ∈ entryC10w.patch_entries, ∀ pe2 ∈ entryC10w.patch_entries,
      pe1.has_source = pe2.has_source) ∧
    download_url_of "m" "Z" entryC10w
      = (if entryC10w.patch_entries.any (fun pe => pe.has_source) = true
         then "m" ++ "/delta/" ++ "Z" else "m" ++ "/full/" ++ "Z") :=
  C10_amended diskC10w "h/" [insC10w] "m"
    (by intro k hk hkd; simp [delta_keys, insC10w] at hkd)
    "Z" entryC10w (by decide)

/-! ## Mirror probing (Mirrors::test_mirrors, mirrors.rs 118-202) -/

/-- Mirror record (mirrors.rs 8-15); the resolved socket addresses are
irrelevant to the claims and omitted; f64 speeds are modelled as rationals. -/
structure Mirror where
  address : String
  speed : ℚ
  ping : ℚ
  in_use : Nat
  enabled : Bool
deriving DecidableEq, Repr

/-- Outcome of one calibration request for the 10kb_file: a transport error,
or a response carrying an optional content-length header value and the
measured duration in microseconds. -/
inductive ProbeResult where
  | err
  | response (content_length : Option String) (duration_us : Nat)
deriving DecidableEq, Repr

/-- Mirror value returned by one probe thread (mirrors.rs 130-176): errors,
missing content-length and content-length ≠ "10000" yield a disabled mirror
with speed 0 and ping 1000; success yields speed = 10000 / duration-in-ms and
ping = duration-in-us / 1000, enabled. -/
def probe_mirror (m : Mirror) (r : ProbeResult) : Mirror :=
  match r with
  | .err => { m with speed := 0, ping := 1000, enabled := false }
  | .response none _ => { m with speed := 0, ping := 1000, enabled := false }
  | .response (some cl) d =>
      if cl ≠ "10000" then { m with speed := 0, ping := 1000, enabled := false }
      else { m with speed := 10000 / ((d / 1000 : Nat) : ℚ),
                    ping := (d : ℚ) / 1000,
                    enabled := true }

/-- Per-index probe results, in thread spawn order (mirrors.rs 120-123
clones mirror i for thread i). -/
def probe_results (out : Nat → ProbeResult) : Nat → List Mirror → List Mirror
  | _, [] => []
  | i, m :: ms => probe_mirror m (out i) :: probe_results out (i + 1) ms

/-- Join-time writeback (mirrors.rs 179-191): each joined result replaces the
first registry entry whose address matches, leaving the rest unchanged. -/
def replace_first : List Mirror → Mirror → List Mirror
  | [], _ => []
  | x :: xs, m =>
      if x.address = m.address then m :: xs else x :: replace_first xs m

/-- Rank step (mirrors.rs 192-200): when more than one mirror is present,
sort by speed descending and disable every mirror whose speed is strictly
below one quarter of the fastest (the head of the sorted list). -/
def rank_mirrors (ms : List Mirror) : List Mirror :=
  if ms.length > 1 then
    match ms.mergeSort (fun a b => decide (b.speed ≤ a.speed)) with
    | [] => []
    | best :: rest =>
        (best :: rest).map
          (fun m => if m.speed < best.speed / 4 then { m with enabled := false } else m)
  else ms

/-- Mirrors::test_mirrors (mirrors.rs 118-202): probe every mirror, write the
results back by address, then rank. -/
def test_mirrors (ms : List Mirror) (out : Nat → ProbeResult) : List Mirror :=
  rank_mirrors ((probe_results out 0 ms).foldl replace_first ms)

/-- Probe outcomes accepted by the calibration check: a response whose
content-length header is present and equals "10000". -/
def probe_good : ProbeResult → Bool
  | .err => false
  | .response none _ => false
  | .response (some cl) _ => cl == "10000"

theorem probe_mirror_address (m : Mirror) (r : ProbeResult) :
    (probe_mirror m r).address = m.address := by
  cases r with
  | err => rfl
  | response cl d =>
      cases cl with
      | none => rfl
      | some s =>
          simp only [probe_mirror]
          split <;> rfl

theorem probe_mirror_enabled (m : Mirror) (r : ProbeResult) :
    (probe_mirror m r).enabled = probe_good r := by
  cases r with
  | err => rfl
  | response cl d =>
      cases cl with
      | none => rfl
      | some s =>
          by_cases h : s = "10000"
          · simp [probe_mirror, probe_good, h]
          · simp [probe_mirror, probe_good, h]

theorem probe_mirror_speed_nonneg (m : Mirror) (r : ProbeResult) :
    0 ≤ (probe_mirror m r).speed := by
  cases r with
  | err => norm_num [probe_mirror]
  | response cl d =>
      cases cl with
      | none => norm_num [probe_mirror]
      | some s =>
          simp only [probe_mirror]
          split
          · norm_num
          · simp only
            positivity

theorem probe_results_map_address (out : Nat → ProbeResult) :
    ∀ (ms : List Mirror) (i : Nat),
      (probe_results out i ms).map Mirror.address = ms.map Mirror.address := by
  intro ms
  induction ms with
  | nil => intro i; rfl
  | cons m rest ih =>
      intro i
      simp [probe_results, probe_mirror_address, ih (i + 1)]

theorem probe_results_mem (out : Nat → ProbeResult) :
    ∀ (ms : List Mirror) (i : Nat), ∀ m0 ∈ probe_results out i ms,
      ∃ j, ∃ hj : j < ms.length,
        m0 = probe_mirror (ms.get ⟨j, hj⟩) (out (i + j)) := by
  intro ms
  induction ms with
  | nil => intro i m0 h; simp [probe_results] at h
  | cons m rest ih =>
      intro i m0 h
      rcases List.mem_cons.mp h with h1 | h1
      · exact ⟨0, by simp, by simpa using h1⟩
      · obtain ⟨j, hj, hm⟩ := ih (i + 1) m0 h1
        refine ⟨j + 1, by simpa using Nat.succ_lt_succ hj, ?_⟩
        simpa [Nat.add_assoc, Nat.add_comm 1 j] using hm

theorem foldl_replace_nil :
    ∀ rs : List Mirror, List.foldl replace_first [] rs = [] := by
  intro rs
  induction rs with
  | nil => rfl
  | cons r rs ih => simpa [replace_first] using ih

theorem foldl_replace_skip (x : Mirror) :
    ∀ (rs l : List Mirror),
      (∀ r ∈ rs, r.address ≠ x.address) →
      List.foldl replace_first (x :: l) rs = x :: List.foldl replace_first l rs := by
  intro rs
  induction rs with
  | nil => intro l _; rfl
  | cons r rs ih =>
      intro l h
      have hr : ¬(x.address = r.address) :=
        fun hh => (h r (List.mem_cons_self r rs)) hh.symm
      simp only [List.foldl_cons, replace_first, if_neg hr]
      exact ih (replace_first l r) (fun q hq => h q (List.mem_cons_of_mem r hq))

theorem foldl_replace_eq :
    ∀ (ms rs : List Mirror),
      rs.map Mirror.address = ms.map Mirror.address →
      (ms.map Mirror.address).Nodup →
      List.foldl replace_first ms rs = rs := by
  intro ms
  induction ms with
  | nil =>
      intro rs h _
      cases rs with
      | nil => rfl
      | cons a b => simp at h
  | cons m ms ih =>
      intro rs h hnd
      cases rs with
      | nil => simp at h
      | cons r rs =>
          simp only [List.map_cons, List.cons.injEq] at h
          obtain ⟨h1, h2⟩ := h
          simp only [List.map_cons, List.nodup_cons] at hnd
          obtain ⟨hm, hnd2⟩ := hnd
          have hstep : replace_first (m :: ms) r = r :: ms := by
            simp [replace_first, h1.symm]
          have hne : ∀ q ∈ rs, q.address ≠ r.address := by
            intro q hq he
            have hmem : q.address ∈ ms.map Mirror.address := by
              rw [← h2]
              exact List.mem_map_of_mem Mirror.address hq
            rw [he, h1] at hmem
            exact hm hmem
          simp only [List.foldl_cons, hstep]
          rw [foldl_replace_skip r rs ms hne, ih rs h2 hnd2]

theorem replace_first_length :
    ∀ (l : List Mirror) (m : Mirror), (replace_first l m).length = l.length := by
  intro l
  induction l with
  | nil => intro m; rfl
  | cons x xs ih =>
      intro m
      by_cases h : x.address = m.address <;> simp [replace_first, h, ih]

theorem foldl_replace_length :
    ∀ (rs l : List Mirror), (List.foldl replace_first l rs).length = l.length := by
  intro rs
  induction rs with
  | nil => intro l; rfl
  | cons r rs ih =>
      intro l
      simp only [List.foldl_cons]
      rw [ih, replace_first_length]

theorem rank_mirrors_back (l : List Mirror) :
    ∀ m ∈ rank_mirrors l, ∃ m0 ∈ l, m.address = m0.address ∧ m.speed = m0.speed
      ∧ (m.enabled = true → m0.enabled = true) := by
  intro m hm
  unfold rank_mirrors at hm
  by_cases hl : l.length > 1
  · rw [if_pos hl] at hm
    cases hsort : l.mergeSort (fun a b => decide (b.speed ≤ a.speed)) with
    | nil => rw [hsort] at hm; simp at hm
    | cons best rest =>
        rw [hsort] at hm
        obtain ⟨m0, hm0, hdis⟩ := List.mem_map.mp hm
        have hm0l : m0 ∈ l := by
          have hmem : m0 ∈ l.mergeSort (fun a b => decide (b.speed ≤ a.speed)) := by
            rw [hsort]; exact hm0
          exact List.mem_mergeSort.mp hmem
        by_cases hc : m0.speed < best.speed / 4
        · rw [if_pos hc] at hdis
          refine ⟨m0, hm0l, by rw [← hdis], by rw [← hdis], ?_⟩
          intro h
          rw [← hdis] at h
          simp at h
        · rw [if_neg hc] at hdis
          exact ⟨m0, hm0l, by rw [← hdis], by rw [← hdis], fun h => by rw [← hdis] at h; exact h⟩
  · rw [if_neg hl] at hm
    exact ⟨m, hm, rfl, rfl, fun h => h⟩

theorem rank_mirrors_quarter (l : List Mirror) (hl : l.length > 1) :
    ∀ m ∈ rank_mirrors l, m.enabled = true →
      ∀ m2 ∈ rank_mirrors l, ¬(m.speed < m2.speed / 4) := by
  have htrans : ∀ a b c : Mirror, decide (b.speed ≤ a.speed) = true →
      decide (c.speed ≤ b.speed) = true → decide (c.speed ≤ a.speed) = true := by
    intro a b c h1 h2
    rw [decide_eq_true_eq] at h1 h2 ⊢
    exact le_trans h2 h1
  have htotal : ∀ a b : Mirror,
      (decide (b.speed ≤ a.speed) || decide (a.speed ≤ b.speed)) = true := by
    intro a b
    rcases le_total a.speed b.speed with h | h <;> simp [h]
  have hpair := List.sorted_mergeSort htrans htotal l
  intro m hm hme m2 hm2
  unfold rank_mirrors at hm hm2
  rw [if_pos hl] at hm hm2
  cases hsort : l.mergeSort (fun a b => decide (b.speed ≤ a.speed)) with
  | nil => rw [hsort] at hm; simp at hm
  | cons best rest =>
      rw [hsort] at hm hm2 hpair
      rw [List.pairwise_cons] at hpair
      obtain ⟨m0, hm0, hdis⟩ := List.mem_map.mp hm
      obtain ⟨n0, hn0, hdis2⟩ := List.mem_map.mp hm2
      by_cases hc : m0.speed < best.speed / 4
      · rw [if_pos hc] at hdis
        rw [← hdis] at hme
        simp at hme
      · rw [if_neg hc] at hdis
        have hms : m.speed = m0.speed := by rw [← hdis]
        have hn2s : m2.speed = n0.speed := by
          by_cases hc2 : n0.speed < best.speed / 4
          · rw [if_pos hc2] at hdis2; rw [← hdis2]
          · rw [if_neg hc2] at hdis2; rw [← hdis2]
        have hn0best : n0.speed ≤ best.speed := by
          rcases List.mem_cons.mp hn0 with h | h
          · rw [h]
          · have hle := hpair.1 n0 h
            rw [decide_eq_true_eq] at hle
            exact hle
        rw [hms, hn2s]
        intro hlt
        rw [not_lt] at hc
        have h4 : n0.speed / 4 ≤ best.speed / 4 := by linarith
        linarith

theorem test_mirrors_quarter (ms : List Mirror) (out : Nat → ProbeResult) :
    ∀ m ∈ test_mirrors ms out, m.enabled = true →
      ∀ m2 ∈ test_mirrors ms out, ¬(m.speed < m2.speed / 4) := by
  intro m hm hme m2 hm2
  unfold test_mirrors at hm hm2
  by_cases hlen : (List.foldl replace_first ms (probe_results out 0 ms)).length > 1
  · exact rank_mirrors_quarter _ hlen m hm hme m2 hm2
  · unfold rank_mirrors at hm hm2
    rw [if_neg hlen] at hm hm2
    cases ms with
    | nil =>
        rw [show probe_results out 0 ([] : List Mirror) = [] from rfl,
          foldl_replace_nil] at hm
        simp at hm
    | cons m0 rest =>
        cases rest with
        | nil =>
            have hrepl : List.foldl replace_first [m0] (probe_results out 0 [m0])
                = [probe_mirror m0 (out 0)] := by
              simp [probe_results, List.foldl_cons, replace_first, probe_mirror_address]
            rw [hrepl] at hm hm2
            have hm' : m = probe_mirror m0 (out 0) := by simpa using hm
            have hm2' : m2 = probe_mirror m0 (out 0) := by simpa using hm2
            have hnn := probe_mirror_speed_nonneg m0 (out 0)
            rw [hm', hm2']
            intro hlt
            linarith
        | cons m1 r2 =>
            exfalso
            apply hlen
            rw [foldl_replace_length]
            simp

theorem test_mirrors_disabled (ms : List Mirror) (out : Nat → ProbeResult)
    (hnd : (ms.map Mirror.address).Nodup) :
    ∀ i (hi : i < ms.length), probe_good (out i) = false →
      ∀ m ∈ test_mirrors ms out, m.address = (ms.get ⟨i, hi⟩).address →
        m.enabled = false := by
  intro i hi hbad m hm haddr
  cases he : m.enabled with
  | false => rfl
  | true =>
      exfalso
      have hrepl : List.foldl replace_first ms (probe_results out 0 ms)
          = probe_results out 0 ms :=
        foldl_replace_eq ms _ (probe_results_map_address out ms 0) hnd
      have hm' : m ∈ rank_mirrors (probe_results out 0 ms) := by
        unfold test_mirrors at hm
        rw [hrepl] at hm
        exact hm
      obtain ⟨m0, hm0, haddr0, _, henab⟩ := rank_mirrors_back _ m hm'
      have hm0en : m0.enabled = true := henab he
      obtain ⟨j, hj, hm0eq⟩ := probe_results_mem out ms 0 m0 hm0
      rw [hm0eq, probe_mirror_enabled] at hm0en
      have haj : (ms.get ⟨j, hj⟩).address = (ms.get ⟨i, hi⟩).address := by
        rw [← haddr, haddr0, hm0eq, probe_mirror_address]
      have hij : i = j := by
        have hgeti : (ms.map Mirror.address).get ⟨i, by simpa using hi⟩
            = (ms.get ⟨i, hi⟩).address := by
          simp [List.get_map]
        have hgetj : (ms.map Mirror.address).get ⟨j, by simpa using hj⟩
            = (ms.get ⟨j, hj⟩).address := by
          simp [List.get_map]
        have heq : (ms.map Mirror.address).get ⟨i, by simpa using hi⟩
            = (ms.map Mirror.address).get ⟨j, by simpa using hj⟩ := by
          rw [hgeti, hgetj, haj]
        have hfin := (List.Nodup.get_inj_iff hnd).mp heq
        exact congrArg Fin.val hfin
      rw [Nat.zero_add, ← hij, hbad] at hm0en
      exact absurd hm0en (by decide)

/-- Claim C7, amended: on a registry whose mirror addresses are pairwise
distinct, every mirror whose calibration response was missing a
Content-Length header, had Content-Length different from "10000", or whose
request errored, is disabled after test_mirrors; and — on any registry — no
mirror that remains enabled has speed strictly below one quarter of any
mirror's speed (in particular the fastest).  The distinctness hypothesis is
forced by C7_counterexample: the join loop writes results back to the first
entry with a matching address, so duplicate addresses leave a stale entry
untouched. -/
theorem C7_amended (ms : List Mirror) (out : Nat → ProbeResult)
    (hnd : (ms.map Mirror.address).Nodup) :
    (∀ i (hi : i < ms.length), probe_good (out i) = false →
      ∀ m ∈ test_mirrors ms out, m.address = (ms.get ⟨i, hi⟩).address →
        m.enabled = false) ∧
    (∀ m ∈ test_mirrors ms out, m.enabled = true →
      ∀ m2 ∈ test_mirrors ms out, ¬(m.speed < m2.speed / 4)) :=
  ⟨test_mirrors_disabled ms out hnd, test_mirrors_quarter ms out⟩

/-- Registry with two mirrors sharing the address "a"; the second one starts
enabled with speed 80. -/
def mirrorsCE : List Mirror :=
  [⟨"a", 80, 500, 0, false⟩, ⟨"a", 80, 500, 0, true⟩]

/-- Claim C7, counterexample: on the duplicate-address registry mirrorsCE
every calibration request errors, yet after test_mirrors some mirror is still
enabled: both probe results are written back onto the first entry (the join
matches by address), the stale second entry keeps enabled = true, and the
rank step does not disable it since its speed 80 is at least a quarter of the
fastest. -/
theorem C7_counterexample :
    ((test_mirrors mirrorsCE (fun _ => ProbeResult.err)).any
      (fun m => m.enabled)) = true := by
  have hrepl : List.foldl replace_first mirrorsCE
      (probe_results (fun _ => ProbeResult.err) 0 mirrorsCE)
      = [⟨"a", 0, 1000, 0, false⟩, ⟨"a", 80, 500, 0, true⟩] := by decide
  unfold test_mirrors
  rw [hrepl]
  unfold rank_mirrors
  rw [if_pos (by decide)]
  have hmem : (⟨"a", 80, 500, 0, true⟩ : Mirror) ∈
      List.mergeSort [⟨"a", 0, 1000, 0, false⟩, ⟨"a", 80, 500, 0, true⟩]
        (fun a b => decide (b.speed ≤ a.speed)) := by
    rw [List.mem_mergeSort]
    simp
  cases hsort : List.mergeSort [⟨"a", 0, 1000, 0, false⟩, (⟨"a", 80, 500, 0, true⟩ : Mirror)]
      (fun a b => decide (b.speed ≤ a.speed)) with
  | nil => rw [hsort] at hmem; simp at hmem
  | cons best rest =>
      rw [hsort] at hmem
      have hbest : best ∈ List.mergeSort
          [⟨"a", 0, 1000, 0, false⟩, (⟨"a", 80, 500, 0, true⟩ : Mirror)]
          (fun a b => decide (b.speed ≤ a.speed)) := by
        rw [hsort]; exact List.mem_cons_self best rest
      rw [List.mem_mergeSort] at hbest
      have hbs : best.speed = 0 ∨ best.speed = 80 := by
        rcases List.mem_cons.mp hbest with h | h
        · left; rw [h]
        · right
          have : best = ⟨"a", 80, 500, 0, true⟩ := by simpa using h
          rw [this]
      have hnot : ¬((80 : ℚ) < best.speed / 4) := by
        rcases hbs with h | h <;> rw [h] <;> norm_num
      rw [List.any_eq_true]
      refine ⟨(⟨"a", 80, 500, 0, true⟩ : Mirror), ?_, rfl⟩
      apply List.mem_map_of_mem (fun m =>
        if m.speed < best.speed / 4 then { m with enabled := false } else m) at hmem
      rw [if_neg hnot] at hmem
      exact hmem

/-- Distinct-address registry for the C7_amended witness. -/
def msW7 : List Mirror :=
  [⟨"a", 80, 500, 0, false⟩, ⟨"b", 80, 500, 0, false⟩]

/-- Probe outcomes for the C7_amended witness: mirror 0 succeeds with
content-length "10000" in 2000 us, mirror 1 errors. -/
def outW7 : Nat → ProbeResult :=
  fun i => if i = 0 then ProbeResult.response (some "10000") 2000 else ProbeResult.err

/-- Witness for C7_amended on msW7 and outW7. -/
theorem C7_amended_witness :
    (∀ m ∈ test_mirrors msW7 outW7,
        m.address = (msW7.get ⟨1, by decide⟩).address → m.enabled = false) ∧
    (∀ m ∈ test_mirrors msW7 outW7, m.enabled = true →
      ∀ m2 ∈ test_mirrors msW7 outW7, ¬(m.speed < m2.speed / 4)) :=
  ⟨(C7_amended msW7 outW7 (by decide)).1 1 (by decide) (by decide),
   (C7_amended msW7 outW7 (by decide)).2⟩

/-! ## Claim C8: mirror failover in download_files (lib.rs 348-369) -/

/-- Outcome of one download task's attempt loop. -/
inductive TaskOutcome where
  | success (attempt : Nat)
  | fatal
  | outOfBounds (idx : Nat)
deriving DecidableEq, Repr

/-- Attempt loop of download_files (lib.rs 351-363), with fuel 5 matching
`for attempt in 0..5`: each iteration first indexes `mirrors[attempt]` to
build the URL (an out-of-bounds panic when the registry is smaller), then
calls download_file (`res attempt = true` on Ok, breaking the loop); on Err
with attempt == 4 the task panics fatally. -/
def task_attempts (mirror_count : Nat) (res : Nat → Bool) : Nat → Nat → TaskOutcome
  | 0, _ => .fatal
  | fuel + 1, attempt =>
      if attempt ≥ mirror_count then .outOfBounds attempt
      else if res attempt then .success attempt
      else if attempt = 4 then .fatal
      else task_attempts mirror_count res fuel (attempt + 1)

/-- Per-task behaviour of Downloader::download_files. -/
def download_files_task (mirror_count : Nat) (res : Nat → Bool) : TaskOutcome :=
  task_attempts mirror_count res 5 0

theorem task_attempts_spec (mc : Nat) (res : Nat → Bool) :
    ∀ fuel retry, fuel + retry = 5 →
    (∀ k, task_attempts mc res fuel retry = .success k →
      retry ≤ k ∧ k < 5 ∧ res k = true ∧ ∀ j, retry ≤ j → j < k → res j = false) ∧
    (5 ≤ mc → (task_attempts mc res fuel retry = .fatal
        ↔ ∀ a, retry ≤ a → a < 5 → res a = false)) ∧
    (5 ≤ mc → ∀ idx, task_attempts mc res fuel retry ≠ .outOfBounds idx) ∧
    (mc < 5 → retry ≤ mc → (∀ a, retry ≤ a → a < mc → res a = false) →
      task_attempts mc res fuel retry = .outOfBounds mc) := by
  intro fuel
  induction fuel with
  | zero =>
      intro retry hfr
      refine ⟨?_, ?_, ?_, ?_⟩
      · intro k h; simp [task_attempts] at h
      · intro _
        simp only [task_attempts]
        constructor
        · intro _ a ha1 ha2; omega
        · intro _; trivial
      · intro _ idx h; simp [task_attempts] at h
      · intro h1 h2 _; omega
  | succ fuel ihf =>
      intro retry hfr
      have hr4 : retry ≤ 4 := by omega
      by_cases hb : retry ≥ mc
      · refine ⟨?_, ?_, ?_, ?_⟩
        · intro k h; simp [task_attempts, if_pos hb] at h
        · intro hmc; omega
        · intro hmc; omega
        · intro hmc hrm _
          have : retry = mc := by omega
          simp [task_attempts, if_pos hb, this]
      · have hbn : ¬(retry ≥ mc) := hb
        by_cases hres : res retry = true
        · refine ⟨?_, ?_, ?_, ?_⟩
          · intro k h
            simp only [task_attempts, if_neg hbn, hres, if_true] at h
            have hk : k = retry := by
              cases h; rfl
            subst hk
            exact ⟨le_refl _, by omega, hres, fun j h1 h2 => by omega⟩
          · intro hmc
            constructor
            · intro h
              simp [task_attempts, if_neg hbn, hres] at h
            · intro hall
              have := hall retry (le_refl _) (by omega)
              rw [hres] at this
              simp at this
          · intro hmc idx h
            simp [task_attempts, if_neg hbn, hres] at h
          · intro hmc hrm hall
            have := hall retry (le_refl _) (by omega)
            rw [hres] at this
            simp at this
        · rw [Bool.not_eq_true] at hres
          by_cases h4 : retry = 4
          · subst h4
            have hstep : task_attempts mc res (fuel + 1) 4 = .fatal := by
              simp [task_attempts, hbn, hres]
            refine ⟨?_, ?_, ?_, ?_⟩
            · intro k h
              rw [hstep] at h
              simp at h
            · intro hmc
              rw [hstep]
              constructor
              · intro _ a ha1 ha2
                have ha : a = 4 := by omega
                subst ha
                exact hres
              · intro _; rfl
            · intro hmc idx h
              rw [hstep] at h
              simp at h
            · intro hmc hrm _
              omega
          · have hstep : task_attempts mc res (fuel + 1) retry
                = task_attempts mc res fuel (retry + 1) := by
              simp [task_attempts, if_neg hbn, hres, h4]
            have ih := ihf (retry + 1) (by omega)
            refine ⟨?_, ?_, ?_, ?_⟩
            · intro k h
              rw [hstep] at h
              obtain ⟨hk1, hk2, hk3, hk4⟩ := ih.1 k h
              refine ⟨by omega, hk2, hk3, ?_⟩
              intro j h1 h2
              rcases Nat.eq_or_lt_of_le h1 with he | hl
              · rw [← he]; exact hres
              · exact hk4 j (by omega) h2
            · intro hmc
              rw [hstep, ih.2.1 hmc]
              constructor
              · intro hall a ha1 ha2
                rcases Nat.eq_or_lt_of_le ha1 with he | hl
                · rw [← he]; exact hres
                · exact hall a (by omega) ha2
              · intro hall a ha1 ha2
                exact hall a (by omega) ha2
            · intro hmc idx
              rw [hstep]
              exact ih.2.2.1 hmc idx
            · intro hmc hrm hall
              rw [hstep]
              refine ih.2.2.2 hmc (by omega) ?_
              intro a ha1 ha2
              exact hall a (by omega) ha2

/-- Claim C8: the worker tries mirrors at attempt indices 0..4 in order
(success at k means download_file failed at every earlier attempt), the task
is fatal exactly when five attempts fail — provided the registry holds at
least five mirrors, in which case no mirror access is out of bounds; with
fewer than five mirrors, a task whose first mirror_count attempts fail
indexes the mirror list out of bounds (the source's `mirrors[attempt]`
panic). -/
theorem C8_failover (mirror_count : Nat) (res : Nat → Bool) :
    (∀ k, download_files_task mirror_count res = .success k →
      k < 5 ∧ res k = true ∧ ∀ j, j < k → res j = false) ∧
    (5 ≤ mirror_count →
      (download_files_task mirror_count res = .fatal ↔ ∀ a, a < 5 → res a = false)) ∧
    (5 ≤ mirror_count → ∀ idx, download_files_task mirror_count res ≠ .outOfBounds idx) ∧
    (mirror_count < 5 → (∀ a, a < mirror_count → res a = false) →
      download_files_task mirror_count res = .outOfBounds mirror_count) := by
  have h := task_attempts_spec mirror_count res 5 0 rfl
  refine ⟨?_, ?_, h.2.2.1, ?_⟩
  · intro k hk
    obtain ⟨_, h2, h3, h4⟩ := h.1 k hk
    exact ⟨h2, h3, fun j hj => h4 j (Nat.zero_le j) hj⟩
  · intro hmc
    have hiff := h.2.1 hmc
    unfold download_files_task
    rw [hiff]
    constructor
    · intro hall a ha; exact hall a (Nat.zero_le a) ha
    · intro hall a _ ha; exact hall a ha
  · intro hmc hall
    exact h.2.2.2 hmc (Nat.zero_le _) (fun a _ ha => hall a ha)

/-- Witness for C8_failover: with five mirrors and the third attempt
succeeding, the task succeeds at attempt 2 after two failures; with three
mirrors all failing, the task indexes mirrors[3] out of bounds. -/
theorem C8_failover_witness :
    (2 < 5 ∧ (fun a : Nat => a == 2) 2 = true
      ∧ ∀ j, j < 2 → (fun a : Nat => a == 2) j = false) ∧
    download_files_task 3 (fun _ => false) = .outOfBounds 3 :=
  ⟨(C8_failover 5 (fun a => a == 2)).1 2 (by decide),
   (C8_failover 3 (fun _ => false)).2.2.2 (by decide) (fun a _ => rfl)⟩

/-! ## Claim C9: retrieve_instructions (lib.rs 155-194) -/

/-- Manifest URL of a mirror:
`format!("{}/instructions.json", mirrors[retry].address)` (lib.rs 162). -/
def instructions_url (address : String) : String := address ++ "/instructions.json"

/-- One manifest fetch attempt against a mirror address (part of the
catch_unwind body, lib.rs 161-177): it succeeds when the HTTP fetch returns a
body whose uppercase hex SHA-256 (abstracted by `hash`) equals the registry's
instructions hash; transport errors and hash mismatches both panic inside the
catch_unwind and yield none. -/
def attempt_ok (hash : String → String) (instructions_hash : String)
    (fetch : String → Option String) (address : String) : Option String :=
  match fetch (instructions_url address) with
  | none => none
  | some text => if hash text = instructions_hash then some text else none

/-- Outcome of one whole attempt of the retry loop, `catch_unwind` included:
`mirrors[retry]` is indexed inside the closure (lib.rs 161-162), so an
out-of-bounds panic on a short registry is caught exactly like a transport
error or hash mismatch and the attempt simply fails. -/
def attempt_result (ms : List String) (ok : String → Option String)
    (retry : Nat) : Option String :=
  match ms[retry]? with
  | none => none
  | some addr => ok addr

/-- Outcome of the manifest retrieval loop. -/
inductive FetchResult where
  | success (attempt : Nat) (mirrors : List String) (text : String)
  | fatal
deriving DecidableEq, Repr

/-- Retry loop of retrieve_instructions (lib.rs 160-187), fuel 3 matching
`for retry in 0..3`: every failure mode of attempt `retry` — including the
out-of-bounds index on a registry shorter than retry + 1 — is caught by the
catch_unwind; on success `remove(0)` is executed retry times (dropping the
retry failed mirrors) and the loop breaks; on the third failure the
operation panics fatally.  The registry is abstracted to its list of mirror
addresses. -/
def retrieve_attempts (ms : List String) (ok : String → Option String) :
    Nat → Nat → FetchResult
  | 0, _ => .fatal
  | fuel + 1, retry =>
      match attempt_result ms ok retry with
      | some text => .success retry (ms.drop retry) text
      | none =>
          if retry = 2 then .fatal
          else retrieve_attempts ms ok fuel (retry + 1)

/-- Downloader::retrieve_instructions over a mirror address list. -/
def retrieve_instructions (ms : List String) (hash : String → String)
    (instructions_hash : String) (fetch : String → Option String) : FetchResult :=
  retrieve_attempts ms (attempt_ok hash instructions_hash fetch) 3 0

theorem attempt_ok_some (hash : String → String) (ihash : String)
    (fetch : String → Option String) (addr text : String)
    (h : attempt_ok hash ihash fetch addr = some text) :
    fetch (instructions_url addr) = some text ∧ hash text = ihash := by
  unfold attempt_ok at h
  cases hf : fetch (instructions_url addr) with
  | none => rw [hf] at h; simp at h
  | some t =>
      rw [hf] at h
      by_cases hh : hash t = ihash
      · simp only [hh, if_true, Option.some.injEq] at h
        subst h
        exact ⟨rfl, hh⟩
      · simp [hh] at h

theorem attempt_result_some (ms : List String) (ok : String → Option String)
    (retry : Nat) (text : String)
    (h : attempt_result ms ok retry = some text) :
    ∃ addr, ms[retry]? = some addr ∧ ok addr = some text := by
  unfold attempt_result at h
  cases hg : ms[retry]? with
  | none => rw [hg] at h; simp at h
  | some addr =>
      rw [hg] at h
      exact ⟨addr, rfl, h⟩

theorem retrieve_attempts_spec (ms : List String) (ok : String → Option String) :
    ∀ fuel retry, fuel + retry = 3 →
    (∀ k ms2 text, retrieve_attempts ms ok fuel retry = .success k ms2 text →
      retry ≤ k ∧ k < 3
      ∧ attempt_result ms ok k = some text
      ∧ ms2 = ms.drop k
      ∧ ∀ j, retry ≤ j → j < k → attempt_result ms ok j = none) ∧
    (retrieve_attempts ms ok fuel retry = .fatal
      ↔ ∀ j, retry ≤ j → j < 3 → attempt_result ms ok j = none) := by
  intro fuel
  induction fuel with
  | zero =>
      intro retry hfr
      constructor
      · intro k ms2 text h
        simp [retrieve_attempts] at h
      · constructor
        · intro _ j hj1 hj2; omega
        · intro _; rfl
  | succ fuel ihf =>
      intro retry hfr
      have hr2 : retry ≤ 2 := by omega
      cases har : attempt_result ms ok retry with
      | some text =>
          have hstep : retrieve_attempts ms ok (fuel + 1) retry
              = .success retry (ms.drop retry) text := by
            simp [retrieve_attempts, har]
          constructor
          · intro k ms2 t h
            rw [hstep] at h
            obtain ⟨hk, hms2, ht⟩ : retry = k ∧ ms.drop retry = ms2 ∧ text = t := by
              cases h; exact ⟨rfl, rfl, rfl⟩
            subst hk; subst hms2; subst ht
            exact ⟨le_refl _, by omega, har, rfl, fun j h1 h2 => by omega⟩
          · rw [hstep]
            constructor
            · intro h; simp at h
            · intro hall
              have := hall retry (le_refl _) (by omega)
              rw [this] at har
              simp at har
      | none =>
          by_cases h2 : retry = 2
          · subst h2
            have hstep : retrieve_attempts ms ok (fuel + 1) 2 = .fatal := by
              simp [retrieve_attempts, har]
            constructor
            · intro k ms2 text h
              rw [hstep] at h
              simp at h
            · rw [hstep]
              constructor
              · intro _ j hj1 hj2
                have hj : j = 2 := by omega
                subst hj
                exact har
              · intro _; rfl
          · have hstep : retrieve_attempts ms ok (fuel + 1) retry
                = retrieve_attempts ms ok fuel (retry + 1) := by
              simp [retrieve_attempts, har, h2]
            have ih := ihf (retry + 1) (by omega)
            constructor
            · intro k ms2 text h
              rw [hstep] at h
              obtain ⟨hk1, hk2, hk3, hk4, hk5⟩ := ih.1 k ms2 text h
              refine ⟨by omega, hk2, hk3, hk4, ?_⟩
              intro j h1 hj
              rcases Nat.eq_or_lt_of_le h1 with he | hl
              · rw [← he]; exact har
              · exact hk5 j (by omega) hj
            · rw [hstep, ih.2]
              constructor
              · intro hall j hj1 hj2
                rcases Nat.eq_or_lt_of_le hj1 with he | hl
                · rw [← he]; exact har
                · exact hall j (by omega) hj2
              · intro hall j hj1 hj2
                exact hall j (by omega) hj2

/-- Claim C9: retrieve_instructions fetches the manifest from mirror ranks
0, 1, 2 in at most three attempts; it accepts a manifest only when its
uppercase hex SHA-256 equals the registry's instructions hash; on success at
attempt k the k mirrors that failed (by transport error or hash mismatch) on
the earlier attempts are exactly the ones removed from the registry (the
final registry is the original minus its first k entries); and the operation
is fatal exactly when all three attempts fail — unconditionally, registries
shorter than three mirrors included, because the out-of-bounds index is
raised inside the catch_unwind and counts as a failed attempt. -/
theorem C9_retrieve (ms : List String) (hash : String → String)
    (ihash : String) (fetch : String → Option String) :
    (∀ k ms2 text,
      retrieve_instructions ms hash ihash fetch = .success k ms2 text →
      k < 3
      ∧ (∃ addr, ms[k]? = some addr
          ∧ fetch (instructions_url addr) = some text ∧ hash text = ihash)
      ∧ ms2 = ms.drop k
      ∧ ∀ j, j < k → ∃ addr, ms[j]? = some addr
          ∧ attempt_ok hash ihash fetch addr = none) ∧
    (retrieve_instructions ms hash ihash fetch = .fatal
      ↔ ∀ j, j < 3 → attempt_result ms (attempt_ok hash ihash fetch) j = none) := by
  have h := retrieve_attempts_spec ms (attempt_ok hash ihash fetch) 3 0 rfl
  constructor
  · intro k ms2 text hk
    obtain ⟨_, h2, h3, h4, h5⟩ := h.1 k ms2 text hk
    obtain ⟨addr, ha1, ha2⟩ := attempt_result_some ms _ k text h3
    obtain ⟨hf, hh⟩ := attempt_ok_some hash ihash fetch addr text ha2
    have hklen : k < ms.length := by
      by_contra hc
      push_neg at hc
      rw [List.getElem?_eq_none_iff.mpr hc] at ha1
      simp at ha1
    refine ⟨h2, ⟨addr, ha1, hf, hh⟩, h4, ?_⟩
    intro j hj
    have hjlen : j < ms.length := by omega
    have hjg : ms[j]? = some ms[j] := List.getElem?_eq_getElem hjlen
    have hja := h5 j (Nat.zero_le j) hj
    unfold attempt_result at hja
    rw [hjg] at hja
    exact ⟨ms[j], hjg, hja⟩
  · unfold retrieve_instructions
    rw [h.2]
    constructor
    · intro hall j hj; exact hall j (Nat.zero_le j) hj
    · intro hall j _ hj; exact hall j hj

/-- Mirror addresses for the C9 witness. -/
def msW9 : List String := ["m0", "m1", "m2"]

/-- Hash function for the C9 witness. -/
def hashW9 : String → String := fun s => s ++ "!"

/-- Fetch outcomes for the C9 witness: only mirror m1 serves the manifest
body "T". -/
def fetchW9 : String → Option String :=
  fun url => if url = "m1/instructions.json" then some "T" else none

/-- Witness for C9_retrieve: on the three-mirror registry the run succeeds at
attempt 1 with the correct hash, the failed mirror m0 is removed, and the
surviving registry is the original minus its first entry; on a one-mirror
registry whose mirror does not serve the manifest, all three attempts fail
(two of them on the caught out-of-bounds index) and the run is fatal. -/
theorem C9_retrieve_witness :
    (1 < 3
      ∧ (∃ addr, msW9[1]? = some addr
          ∧ fetchW9 (instructions_url addr) = some "T" ∧ hashW9 "T" = "T!")
      ∧ ["m1", "m2"] = msW9.drop 1
      ∧ ∀ j, j < 1 → ∃ addr, msW9[j]? = some addr
          ∧ attempt_ok hashW9 "T!" fetchW9 addr = none) ∧
    retrieve_instructions ["m0"] hashW9 "T!" fetchW9 = .fatal :=
  ⟨(C9_retrieve msW9 hashW9 "T!" fetchW9).1 1 ["m1", "m2"] "T" (by decide),
   (C9_retrieve ["m0"] hashW9 "T!" fetchW9).2.mpr (by decide)⟩
